import Mathlib

/-!
Verification of the LRU cache in `pkg/lrucache/lrucache.go`.

The Go implementation keeps a `map[string]*Node` together with a doubly
linked list of `Node` values threaded through `Prev`/`Next` pointers.
We embed the pointer structure with an explicit heap: node pointers
become `Nat` identifiers, the heap is a function `Nat → Option Node`,
and `fresh` is the allocator counter (the next never-used identifier).
Every field read and write of the Go code becomes a read or write of
this heap, in the same order as the source, so aliasing behaves as in Go.
The Go `map` is embedded as the function `Cache : String → Option Nat`
together with `cacheLen`, the entry count that Go's `len` reads.
-/

namespace LRU

/-- Struct `Node` from lrucache.go: key, value and the two list pointers. -/
structure Node where
  key   : String
  value : String
  prev  : Option Nat
  next  : Option Nat
  deriving Repr, DecidableEq

/-- Struct `LRUCache` from lrucache.go.  `nodes`/`fresh` embed the Go heap of
`Node` objects; `cacheLen` is `len(c.Cache)`.  The `sync.RWMutex` field
has no sequential content and is omitted. -/
structure LRUCache where
  Capacity : Int
  Head     : Option Nat
  Tail     : Option Nat
  Cache    : String → Option Nat
  nodes    : Nat → Option Node
  cacheLen : Nat
  fresh    : Nat

/-- Dereference a node pointer.  On reachable states every dereference
the Go code performs is of a live pointer, so the default is never hit. -/
def LRUCache.getNode (c : LRUCache) (i : Nat) : Node :=
  (c.nodes i).getD ⟨"", "", none, none⟩

/-- Write one node cell of the heap (a Go field assignment). -/
def LRUCache.setNode (c : LRUCache) (i : Nat) (n : Node) : LRUCache :=
  { c with nodes := fun j => if j = i then some n else c.nodes j }

/-- Constructor `NewLRUCache` (lrucache.go lines 28-40). -/
def NewLRUCache (capacity : Int) : Except String LRUCache :=
  if capacity ≤ 0 then .error "invalid capacity: must be greater than 0"
  else .ok ⟨capacity, none, none, fun _ => none, fun _ => none, 0, 0⟩

/-- Method `removeNode` (lrucache.go lines 67-80).  Each Go field read is a
fresh heap read, in source order. -/
def LRUCache.removeNode (c : LRUCache) (i : Nat) : LRUCache :=
  let c1 :=
    match (c.getNode i).prev with
    | some p => c.setNode p { c.getNode p with next := (c.getNode i).next }
    | none   => { c with Head := (c.getNode i).next }
  match (c1.getNode i).next with
  | some q => c1.setNode q { c1.getNode q with prev := (c1.getNode i).prev }
  | none   => { c1 with Tail := (c1.getNode i).prev }

/-- Method `addToHead` (lrucache.go lines 82-95). -/
def LRUCache.addToHead (c : LRUCache) (i : Nat) : LRUCache :=
  let c1 := c.setNode i { c.getNode i with prev := none, next := c.Head }
  let c2 :=
    match c1.Head with
    | some h => c1.setNode h { c1.getNode h with prev := some i }
    | none   => c1
  let c3 := { c2 with Head := some i }
  match c3.Tail with
  | some _ => c3
  | none   => { c3 with Tail := some i }

/-- Method `moveToHead` (lrucache.go lines 55-65); `c.Head == node` is Go
pointer equality, i.e. equality of identifiers. -/
def LRUCache.moveToHead (c : LRUCache) (i : Nat) : LRUCache :=
  if c.Head = some i then c else (c.removeNode i).addToHead i

/-- Method `removeTail` (lrucache.go lines 97-105); returns the evicted node's
pointer as Go does. -/
def LRUCache.removeTail (c : LRUCache) : Option Nat × LRUCache :=
  match c.Tail with
  | none   => (none, c)
  | some t => (some t, c.removeNode t)

/-- The Go statement `delete(c.Cache, k)`: removes the key when present, which also
shrinks `len(c.Cache)` by one; a no-op on an absent key. -/
def LRUCache.eraseKey (c : LRUCache) (k : String) : LRUCache :=
  match c.Cache k with
  | some _ =>
    { c with Cache := fun k2 => if k2 = k then none else c.Cache k2,
             cacheLen := c.cacheLen - 1 }
  | none   => c

/-- The eviction block inlined in `Put` (lrucache.go lines 128-134):
`if len(c.Cache) >= c.Capacity { tail := c.removeTail(); if tail != nil
{ delete(c.Cache, tail.Key) } }`.  Named here so that the state between
eviction and insertion can be talked about. -/
def LRUCache.evictLRU (c : LRUCache) : LRUCache :=
  if (c.cacheLen : Int) ≥ c.Capacity then
    match c.removeTail with
    | (some t, c') => c'.eraseKey ((c'.getNode t).key)
    | (none, c')   => c'
  else c

/-- Method `Get` (lrucache.go lines 44-53).  Returns `(value, found)` and the
new state; `node.Value` is read after `moveToHead`, as in the source. -/
def LRUCache.Get (c : LRUCache) (k : String) : (String × Bool) × LRUCache :=
  match c.Cache k with
  | some i =>
    let c1 := c.moveToHead i
    (((c1.getNode i).value, true), c1)
  | none => (("", false), c)

/-- Method `Put` (lrucache.go lines 109-139).  A new node is allocated at the
next fresh identifier with nil links, exactly as `&Node{Key: key,
Value: value}`. -/
def LRUCache.Put (c : LRUCache) (k v : String) : LRUCache :=
  match c.Cache k with
  | some i => ((c.setNode i { c.getNode i with value := v }).moveToHead i)
  | none =>
    let c1 := c.evictLRU
    let i := c1.fresh
    let c2 := { c1 with
      Cache := fun k2 => if k2 = k then some i else c1.Cache k2,
      nodes := fun j => if j = i then some ⟨k, v, none, none⟩ else c1.nodes j,
      cacheLen := c1.cacheLen + 1,
      fresh := c1.fresh + 1 }
    c2.addToHead i

/-- Method `Clear` (lrucache.go lines 142-149): nil head and tail, fresh map. -/
def LRUCache.Clear (c : LRUCache) : LRUCache :=
  { c with Head := none, Tail := none, Cache := fun _ => none, cacheLen := 0 }

/-- Method `Size` (lrucache.go lines 152-156): `len(c.Cache)`. -/
def LRUCache.Size (c : LRUCache) : Nat := c.cacheLen

/-- Method `IsEmpty` (lrucache.go lines 159-163): `len(c.Cache) == 0`. -/
def LRUCache.IsEmpty (c : LRUCache) : Bool := c.cacheLen == 0

/-- Method `Has` (lrucache.go lines 166-171): `_, ok := c.Cache[key]`. -/
def LRUCache.Has (c : LRUCache) (k : String) : Bool := (c.Cache k).isSome

/-- Map-style insert for the result of `BatchGet` (a Go `map` write). -/
def upsert : List (String × String) → String → String → List (String × String)
  | [], k, v => [(k, v)]
  | (k', v') :: rest, k, v =>
    if k' = k then (k, v) :: rest else (k', v') :: upsert rest k v

/-- One visit of `BatchGet`: perform the `Get` and record the returned
value (the empty string on a miss) under the requested key. -/
def batchStep (acc : List (String × String) × LRUCache) (k : String) :
    List (String × String) × LRUCache :=
  (upsert acc.1 k (acc.2.Get k).1.1, (acc.2.Get k).2)

/-- Modelled from the spec: `BatchGet` is not under `src/` (only a
commented-out call in `cmd/main.go` mentions it).  Per spec §4.1 it
performs a `Get` for each key in sequence order, records every requested
key in the result mapping (the miss placeholder is the empty string that
`Get` itself returns), and reports `anyFound` as "the result mapping is
nonempty". -/
def LRUCache.BatchGet (c : LRUCache) (keys : List String) :
    (List (String × String) × Bool) × LRUCache :=
  let r := keys.foldl batchStep ([], c)
  ((r.1, !r.1.isEmpty), r.2)

/-!
## Abstract view of a cache state

A state is *well formed* when its heap, head/tail pointers and map are
exactly the picture of one list of entries `E` (most-recently-used
first): `Rel c E`.  `segOk` says the heap cells of `E` form one doubly
linked chain whose first `prev` is `pv` and whose last `next` is `nx`.
-/

/-- An abstract entry: node identifier, key, value. -/
abbrev Entry := Nat × String × String

def keysOf (E : List Entry) : List String := E.map fun e => e.2.1

def idsOf (E : List Entry) : List Nat := E.map fun e => e.1

/-- Identifier of the first entry, or `nx` when the list is empty. -/
def headIdOr : List Entry → Option Nat → Option Nat
  | [], nx => nx
  | e :: _, _ => some e.1

/-- Identifier of the last entry, or `pv` when the list is empty. -/
def lastIdOr : List Entry → Option Nat → Option Nat
  | [], pv => pv
  | e :: rest, _ => lastIdOr rest (some e.1)

/-- The heap cells listed in `E` form a doubly linked chain from an
entry whose `prev` is `pv` down to an entry whose `next` is `nx`. -/
def segOk (nd : Nat → Option Node) : Option Nat → Option Nat → List Entry → Prop
  | _, _, [] => True
  | pv, nx, e :: rest =>
      nd e.1 = some ⟨e.2.1, e.2.2, pv, headIdOr rest nx⟩ ∧
      segOk nd (some e.1) nx rest

/-- The node identifier the map should associate to key `k`. -/
def idOfKey (E : List Entry) (k : String) : Option Nat :=
  (E.find? fun e => e.2.1 == k).map (·.1)

/-- Relation `Rel c E`: the concrete state `c` is the faithful picture of the
abstract entry list `E` (most-recently-used first).  This packages the
structural invariants of the cache: the map agrees with the chain
(every key names exactly one chain node and vice versa), the entry
count is the chain length, the chain is simple (head has no `prev`,
tail has no `next`, neighbours point at each other — `segOk`), and all
chain identifiers are below the allocator counter. -/
structure Rel (c : LRUCache) (E : List Entry) : Prop where
  seg : segOk c.nodes none none E
  head_eq : c.Head = headIdOr E none
  tail_eq : c.Tail = lastIdOr E none
  cache_eq : ∀ k, c.Cache k = idOfKey E k
  len_eq : c.cacheLen = E.length
  ids_nodup : (idsOf E).Nodup
  keys_nodup : (keysOf E).Nodup
  fresh_big : ∀ e ∈ E, e.1 < c.fresh

/-- A structurally well-formed cache state. -/
def Inv (c : LRUCache) : Prop := ∃ E, Rel c E

/-! ### Basic lemmas about the abstract view -/

@[simp] theorem keysOf_nil : keysOf [] = [] := rfl

@[simp] theorem keysOf_cons (e : Entry) (E : List Entry) :
    keysOf (e :: E) = e.2.1 :: keysOf E := rfl

@[simp] theorem keysOf_append (A B : List Entry) :
    keysOf (A ++ B) = keysOf A ++ keysOf B := List.map_append ..

@[simp] theorem idsOf_nil : idsOf [] = [] := rfl

@[simp] theorem idsOf_cons (e : Entry) (E : List Entry) :
    idsOf (e :: E) = e.1 :: idsOf E := rfl

@[simp] theorem idsOf_append (A B : List Entry) :
    idsOf (A ++ B) = idsOf A ++ idsOf B := List.map_append ..

@[simp] theorem headIdOr_nil (nx : Option Nat) : headIdOr [] nx = nx := rfl

@[simp] theorem headIdOr_cons (e : Entry) (E : List Entry) (nx : Option Nat) :
    headIdOr (e :: E) nx = some e.1 := rfl

theorem headIdOr_append (A B : List Entry) (nx : Option Nat) :
    headIdOr (A ++ B) nx = headIdOr A (headIdOr B nx) := by
  cases A <;> rfl

@[simp] theorem lastIdOr_nil (pv : Option Nat) : lastIdOr [] pv = pv := rfl

@[simp] theorem lastIdOr_cons (e : Entry) (E : List Entry) (pv : Option Nat) :
    lastIdOr (e :: E) pv = lastIdOr E (some e.1) := rfl

theorem lastIdOr_append (A B : List Entry) (pv : Option Nat) :
    lastIdOr (A ++ B) pv = lastIdOr B (lastIdOr A pv) := by
  induction A generalizing pv with
  | nil => rfl
  | cons e A ih => simp [ih]

theorem lastIdOr_indep (A : List Entry) (h : A ≠ []) (pv pv' : Option Nat) :
    lastIdOr A pv = lastIdOr A pv' := by
  cases A with
  | nil => exact absurd rfl h
  | cons e A => simp

@[simp] theorem segOk_nil (nd : Nat → Option Node) (pv nx : Option Nat) :
    segOk nd pv nx [] := trivial

theorem segOk_cons (nd : Nat → Option Node) (pv nx : Option Nat)
    (e : Entry) (E : List Entry) :
    segOk nd pv nx (e :: E) ↔
      nd e.1 = some ⟨e.2.1, e.2.2, pv, headIdOr E nx⟩ ∧
      segOk nd (some e.1) nx E := Iff.rfl

theorem segOk_append (nd : Nat → Option Node) (A B : List Entry)
    (pv nx : Option Nat) :
    segOk nd pv nx (A ++ B) ↔
      segOk nd pv (headIdOr B nx) A ∧ segOk nd (lastIdOr A pv) nx B := by
  induction A generalizing pv with
  | nil => simp [segOk]
  | cons e A ih =>
    simp only [List.cons_append, segOk_cons, headIdOr_append, ih,
      lastIdOr_cons, and_assoc]

theorem segOk_congr {nd nd' : Nat → Option Node} {E : List Entry}
    (h : ∀ e ∈ E, nd' e.1 = nd e.1) {pv nx : Option Nat} :
    segOk nd pv nx E → segOk nd' pv nx E := by
  induction E generalizing pv with
  | nil => intro; trivial
  | cons e E ih =>
    intro hs
    exact ⟨(h e (by simp)).trans hs.1,
      ih (fun e' he' => h e' (by simp [he'])) hs.2⟩

@[simp] theorem idOfKey_nil (k : String) : idOfKey [] k = none := rfl

theorem idOfKey_cons (e : Entry) (E : List Entry) (k : String) :
    idOfKey (e :: E) k = if e.2.1 = k then some e.1 else idOfKey E k := by
  by_cases h : e.2.1 = k <;> simp [idOfKey, List.find?_cons, h]

theorem idOfKey_eq_none_iff (E : List Entry) (k : String) :
    idOfKey E k = none ↔ k ∉ keysOf E := by
  induction E with
  | nil => simp
  | cons e E ih =>
    by_cases h : e.2.1 = k <;> simp [idOfKey_cons, h, ih, Ne.symm]

theorem idOfKey_isSome_iff (E : List Entry) (k : String) :
    (idOfKey E k).isSome = true ↔ k ∈ keysOf E := by
  rw [← Decidable.not_iff_not, ← idOfKey_eq_none_iff E k]
  simp [Option.isSome_iff_ne_none]

theorem idOfKey_append_of_none {A : List Entry} {k : String}
    (h : k ∉ keysOf A) (B : List Entry) :
    idOfKey (A ++ B) k = idOfKey B k := by
  induction A with
  | nil => rfl
  | cons e A ih =>
    simp only [keysOf_cons, List.mem_cons, not_or] at h
    simp [idOfKey_cons, Ne.symm, h.1, ih h.2]

theorem idOfKey_some_decomp {E : List Entry} {k : String} {i : Nat}
    (h : idOfKey E k = some i) :
    ∃ A v B, E = A ++ (i, k, v) :: B ∧ k ∉ keysOf A := by
  induction E with
  | nil => simp at h
  | cons e E ih =>
    rw [idOfKey_cons] at h
    by_cases hk : e.2.1 = k
    · rw [if_pos hk] at h
      refine ⟨[], e.2.2, E, ?_, by simp⟩
      obtain rfl := Option.some.injEq .. ▸ h
      simp [← hk]
    · rw [if_neg hk] at h
      obtain ⟨A, v, B, rfl, hA⟩ := ih h
      exact ⟨e :: A, v, B, rfl, by simp [hA, Ne.symm hk, hk]⟩

theorem idOfKey_append_of_some {A : List Entry} {k : String} {i : Nat}
    (h : idOfKey A k = some i) (B : List Entry) :
    idOfKey (A ++ B) k = some i := by
  induction A with
  | nil => simp at h
  | cons e A ih =>
    rw [idOfKey_cons] at h
    rw [List.cons_append, idOfKey_cons]
    by_cases hk : e.2.1 = k
    · rwa [if_pos hk] at h ⊢
    · rw [if_neg hk] at h ⊢; exact ih h

theorem headIdOr_indep {A : List Entry} (h : A ≠ []) (x y : Option Nat) :
    headIdOr A x = headIdOr A y := by
  cases A with
  | nil => exact absurd rfl h
  | cons e A => rfl

theorem lastIdOr_concat (A : List Entry) (e : Entry) (pv : Option Nat) :
    lastIdOr (A ++ [e]) pv = some e.1 := by
  rw [lastIdOr_append]; rfl

theorem lastIdOr_some (A : List Entry) (x : Nat) :
    ∃ j, lastIdOr A (some x) = some j := by
  induction A generalizing x with
  | nil => exact ⟨x, rfl⟩
  | cons e A ih => simpa using ih e.1

/-! ### Which fields each helper preserves -/

@[simp] theorem setNode_Cache (c : LRUCache) (i : Nat) (n : Node) :
    (c.setNode i n).Cache = c.Cache := rfl

@[simp] theorem setNode_Head (c : LRUCache) (i : Nat) (n : Node) :
    (c.setNode i n).Head = c.Head := rfl

@[simp] theorem setNode_Tail (c : LRUCache) (i : Nat) (n : Node) :
    (c.setNode i n).Tail = c.Tail := rfl

@[simp] theorem setNode_cacheLen (c : LRUCache) (i : Nat) (n : Node) :
    (c.setNode i n).cacheLen = c.cacheLen := rfl

@[simp] theorem setNode_fresh (c : LRUCache) (i : Nat) (n : Node) :
    (c.setNode i n).fresh = c.fresh := rfl

@[simp] theorem setNode_Capacity (c : LRUCache) (i : Nat) (n : Node) :
    (c.setNode i n).Capacity = c.Capacity := rfl

theorem setNode_nodes (c : LRUCache) (i : Nat) (n : Node) (j : Nat) :
    (c.setNode i n).nodes j = if j = i then some n else c.nodes j := rfl

theorem getNode_eq {c : LRUCache} {i : Nat} {n : Node}
    (h : c.nodes i = some n) : c.getNode i = n := by
  simp [LRUCache.getNode, h]

@[simp] theorem removeNode_Cache (c : LRUCache) (i : Nat) :
    (c.removeNode i).Cache = c.Cache := by
  unfold LRUCache.removeNode; dsimp only; split <;> split <;> rfl

@[simp] theorem removeNode_cacheLen (c : LRUCache) (i : Nat) :
    (c.removeNode i).cacheLen = c.cacheLen := by
  unfold LRUCache.removeNode; dsimp only; split <;> split <;> rfl

@[simp] theorem removeNode_fresh (c : LRUCache) (i : Nat) :
    (c.removeNode i).fresh = c.fresh := by
  unfold LRUCache.removeNode; dsimp only; split <;> split <;> rfl

@[simp] theorem removeNode_Capacity (c : LRUCache) (i : Nat) :
    (c.removeNode i).Capacity = c.Capacity := by
  unfold LRUCache.removeNode; dsimp only; split <;> split <;> rfl

@[simp] theorem addToHead_Cache (c : LRUCache) (i : Nat) :
    (c.addToHead i).Cache = c.Cache := by
  unfold LRUCache.addToHead; dsimp only; split <;> split <;> rfl

@[simp] theorem addToHead_cacheLen (c : LRUCache) (i : Nat) :
    (c.addToHead i).cacheLen = c.cacheLen := by
  unfold LRUCache.addToHead; dsimp only; split <;> split <;> rfl

@[simp] theorem addToHead_fresh (c : LRUCache) (i : Nat) :
    (c.addToHead i).fresh = c.fresh := by
  unfold LRUCache.addToHead; dsimp only; split <;> split <;> rfl

@[simp] theorem addToHead_Capacity (c : LRUCache) (i : Nat) :
    (c.addToHead i).Capacity = c.Capacity := by
  unfold LRUCache.addToHead; dsimp only; split <;> split <;> rfl

@[simp] theorem moveToHead_Cache (c : LRUCache) (i : Nat) :
    (c.moveToHead i).Cache = c.Cache := by
  unfold LRUCache.moveToHead; split <;> simp

@[simp] theorem moveToHead_cacheLen (c : LRUCache) (i : Nat) :
    (c.moveToHead i).cacheLen = c.cacheLen := by
  unfold LRUCache.moveToHead; split <;> simp

@[simp] theorem moveToHead_fresh (c : LRUCache) (i : Nat) :
    (c.moveToHead i).fresh = c.fresh := by
  unfold LRUCache.moveToHead; split <;> simp

@[simp] theorem moveToHead_Capacity (c : LRUCache) (i : Nat) :
    (c.moveToHead i).Capacity = c.Capacity := by
  unfold LRUCache.moveToHead; split <;> simp

@[simp] theorem eraseKey_Head (c : LRUCache) (k : String) :
    (c.eraseKey k).Head = c.Head := by
  unfold LRUCache.eraseKey; split <;> rfl

@[simp] theorem eraseKey_Tail (c : LRUCache) (k : String) :
    (c.eraseKey k).Tail = c.Tail := by
  unfold LRUCache.eraseKey; split <;> rfl

@[simp] theorem eraseKey_nodes (c : LRUCache) (k : String) :
    (c.eraseKey k).nodes = c.nodes := by
  unfold LRUCache.eraseKey; split <;> rfl

@[simp] theorem eraseKey_fresh (c : LRUCache) (k : String) :
    (c.eraseKey k).fresh = c.fresh := by
  unfold LRUCache.eraseKey; split <;> rfl

@[simp] theorem eraseKey_Capacity (c : LRUCache) (k : String) :
    (c.eraseKey k).Capacity = c.Capacity := by
  unfold LRUCache.eraseKey; split <;> rfl

@[simp] theorem evictLRU_fresh (c : LRUCache) :
    c.evictLRU.fresh = c.fresh := by
  unfold LRUCache.evictLRU
  split
  · cases htail : c.Tail with
    | none => simp [LRUCache.removeTail, htail]
    | some t => simp [LRUCache.removeTail, htail]
  · rfl

@[simp] theorem evictLRU_Capacity (c : LRUCache) :
    c.evictLRU.Capacity = c.Capacity := by
  unfold LRUCache.evictLRU
  split
  · cases htail : c.Tail with
    | none => simp [LRUCache.removeTail, htail]
    | some t => simp [LRUCache.removeTail, htail]
  · rfl

/-! ### Unfolding equations for the public operations -/

theorem moveToHead_of_head {c : LRUCache} {i : Nat} (h : c.Head = some i) :
    c.moveToHead i = c := if_pos h

theorem moveToHead_of_ne {c : LRUCache} {i : Nat} (h : ¬c.Head = some i) :
    c.moveToHead i = (c.removeNode i).addToHead i := if_neg h

theorem Get_eq_hit {c : LRUCache} {k : String} {i : Nat}
    (h : c.Cache k = some i) :
    c.Get k = ((((c.moveToHead i).getNode i).value, true), c.moveToHead i) := by
  simp [LRUCache.Get, h]

theorem Get_eq_miss {c : LRUCache} {k : String} (h : c.Cache k = none) :
    c.Get k = (("", false), c) := by
  simp [LRUCache.Get, h]

theorem Put_eq_existing {c : LRUCache} {k : String} {i : Nat} (v : String)
    (h : c.Cache k = some i) :
    c.Put k v = (c.setNode i { c.getNode i with value := v }).moveToHead i := by
  simp [LRUCache.Put, h]

theorem Put_eq_new {c : LRUCache} {k : String} (v : String)
    (h : c.Cache k = none) :
    c.Put k v = LRUCache.addToHead { c.evictLRU with
      Cache := fun k2 => if k2 = k then some c.evictLRU.fresh
               else c.evictLRU.Cache k2,
      nodes := fun j => if j = c.evictLRU.fresh then some ⟨k, v, none, none⟩
               else c.evictLRU.nodes j,
      cacheLen := c.evictLRU.cacheLen + 1,
      fresh := c.evictLRU.fresh + 1 } c.evictLRU.fresh := by
  simp [LRUCache.Put, h]

theorem evictLRU_of_small {c : LRUCache}
    (h : ¬(c.cacheLen : Int) ≥ c.Capacity) : c.evictLRU = c := by
  simp [LRUCache.evictLRU, h]

theorem evictLRU_of_big_noTail {c : LRUCache}
    (hsz : (c.cacheLen : Int) ≥ c.Capacity) (htail : c.Tail = none) :
    c.evictLRU = c := by
  simp [LRUCache.evictLRU, LRUCache.removeTail, hsz, htail]

theorem evictLRU_of_big {c : LRUCache} {t : Nat}
    (hsz : (c.cacheLen : Int) ≥ c.Capacity) (htail : c.Tail = some t) :
    c.evictLRU = (c.removeNode t).eraseKey (((c.removeNode t).getNode t).key) := by
  simp [LRUCache.evictLRU, LRUCache.removeTail, hsz, htail]

theorem eraseKey_of_some {c : LRUCache} {k : String} {j : Nat}
    (h : c.Cache k = some j) :
    c.eraseKey k = { c with
      Cache := fun k2 => if k2 = k then none else c.Cache k2,
      cacheLen := c.cacheLen - 1 } := by
  simp [LRUCache.eraseKey, h]

/-! ### Pointer surgery, case by case

The four shapes `removeNode` can meet (node with/without a predecessor,
with/without a successor) and the two shapes `addToHead` can meet
(empty or nonempty list), written out as explicit state equations. -/

theorem removeNode_eq_nn {c : LRUCache} {i : Nat} {n : Node}
    (h : c.nodes i = some n) (hp : n.prev = none) (hq : n.next = none) :
    c.removeNode i = { c with Head := none, Tail := none } := by
  have hg : c.getNode i = n := getNode_eq h
  have hKi : ({ c with Head := none } : LRUCache).getNode i = n := by
    simp [LRUCache.getNode, h]
  unfold LRUCache.removeNode
  rw [hg, hp, hq]
  dsimp only
  rw [hKi, hq, hp]

theorem removeNode_eq_ns {c : LRUCache} {i q : Nat} {n : Node}
    (h : c.nodes i = some n) (hp : n.prev = none) (hq : n.next = some q) :
    c.removeNode i = { c with
      Head := some q,
      nodes := fun j =>
        if j = q then some ({ c.getNode q with prev := none })
        else c.nodes j } := by
  have hg : c.getNode i = n := getNode_eq h
  have hKi : ({ c with Head := some q } : LRUCache).getNode i = n := by
    simp [LRUCache.getNode, h]
  have hKq : ({ c with Head := some q } : LRUCache).getNode q = c.getNode q := rfl
  unfold LRUCache.removeNode
  rw [hg, hp, hq]
  dsimp only
  rw [hKi, hq, hp]
  dsimp only
  rw [hKq]
  simp [LRUCache.setNode]

theorem removeNode_eq_sn {c : LRUCache} {i p : Nat} {n : Node}
    (h : c.nodes i = some n) (hp : n.prev = some p) (hq : n.next = none)
    (hpi : p ≠ i) :
    c.removeNode i = { c with
      Tail := some p,
      nodes := fun j =>
        if j = p then some ({ c.getNode p with next := none })
        else c.nodes j } := by
  have hg : c.getNode i = n := getNode_eq h
  have hKi : (c.setNode p ({ c.getNode p with next := none })).getNode i = n := by
    simp [LRUCache.getNode, setNode_nodes, Ne.symm hpi, h]
  unfold LRUCache.removeNode
  rw [hg, hp, hq]
  dsimp only
  rw [hKi, hq, hp]
  simp [LRUCache.setNode]

theorem removeNode_eq_ss {c : LRUCache} {i p q : Nat} {n : Node}
    (h : c.nodes i = some n) (hp : n.prev = some p) (hq : n.next = some q)
    (hpi : p ≠ i) (hpq : p ≠ q) :
    c.removeNode i = { c with
      nodes := fun j =>
        if j = q then some ({ c.getNode q with prev := some p })
        else if j = p then some ({ c.getNode p with next := some q })
        else c.nodes j } := by
  have hg : c.getNode i = n := getNode_eq h
  have hKi : (c.setNode p
      ⟨(c.getNode p).key, (c.getNode p).value, (c.getNode p).prev, some q⟩).getNode i
      = n := by
    simp [LRUCache.getNode, setNode_nodes, Ne.symm hpi, h]
  have hKq : (c.setNode p
      ⟨(c.getNode p).key, (c.getNode p).value, (c.getNode p).prev, some q⟩).getNode q
      = c.getNode q := by
    simp [LRUCache.getNode, setNode_nodes, Ne.symm hpq]
  unfold LRUCache.removeNode
  rw [hg, hp, hq]
  dsimp only
  rw [hKi, hq, hp]
  dsimp only
  rw [hKq]
  simp [LRUCache.setNode]

theorem addToHead_eq_empty {c : LRUCache} {i : Nat}
    (hh : c.Head = none) (ht : c.Tail = none) :
    c.addToHead i = { c with
      Head := some i,
      Tail := some i,
      nodes := fun j =>
        if j = i then some ({ c.getNode i with prev := none, next := none })
        else c.nodes j } := by
  simp only [LRUCache.addToHead, setNode_Head, setNode_Tail, hh, ht]
  simp [LRUCache.setNode]

theorem addToHead_eq_cons {c : LRUCache} {i h t : Nat}
    (hh : c.Head = some h) (hhi : h ≠ i) (ht : c.Tail = some t) :
    c.addToHead i = { c with
      Head := some i,
      nodes := fun j =>
        if j = h then some ({ c.getNode h with prev := some i })
        else if j = i then
          some ({ c.getNode i with prev := none, next := some h })
        else c.nodes j } := by
  have hgh : (c.setNode i ({ c.getNode i with prev := none, next := some h })).getNode h
      = c.getNode h := by
    simp [LRUCache.getNode, setNode_nodes, hhi]
  simp only [LRUCache.addToHead, hh, setNode_Head, setNode_Tail, ht]
  rw [hgh]
  simp [LRUCache.setNode]

/-! ### The surgery lemmas at the level of entry lists -/

/-- The part of `Rel` that only concerns the linked list. -/
structure ListRel (c : LRUCache) (E : List Entry) : Prop where
  seg : segOk c.nodes none none E
  head_eq : c.Head = headIdOr E none
  tail_eq : c.Tail = lastIdOr E none

theorem nodup_middle_parts {α : Type} {l₁ l₂ : List α} {a : α}
    (h : (l₁ ++ a :: l₂).Nodup) :
    a ∉ l₁ ∧ a ∉ l₂ ∧ (l₁ ++ l₂).Nodup := by
  rw [List.nodup_middle, List.nodup_cons, List.mem_append] at h
  tauto

theorem eq_nil_or_append_one {α : Type} (l : List α) :
    l = [] ∨ ∃ l' b, l = l' ++ [b] := by
  induction l with
  | nil => exact Or.inl rfl
  | cons x xs ih =>
    refine Or.inr ?_
    rcases ih with rfl | ⟨l', b, rfl⟩
    · exact ⟨[], x, rfl⟩
    · exact ⟨x :: l', b, rfl⟩

theorem id_mem_idsOf {e : Entry} {E : List Entry} (h : e ∈ E) :
    e.1 ∈ idsOf E := List.mem_map_of_mem _ h

theorem key_mem_keysOf {e : Entry} {E : List Entry} (h : e ∈ E) :
    e.2.1 ∈ keysOf E := List.mem_map_of_mem _ h

/-- Removing a mid-list node: the chain with the entry dropped is again
a well-linked picture, and the removed node's own heap cell is
untouched. -/
theorem removeNode_spec {c : LRUCache} {A B : List Entry} {e : Entry}
    (hL : ListRel c (A ++ e :: B))
    (hnd : (idsOf (A ++ e :: B)).Nodup) :
    ListRel (c.removeNode e.1) (A ++ B) ∧
    (c.removeNode e.1).nodes e.1 = c.nodes e.1 := by
  obtain ⟨hseg, hhead, htail⟩ := hL
  rw [segOk_append] at hseg
  obtain ⟨hsegA, hsegM⟩ := hseg
  rw [segOk_cons] at hsegM
  obtain ⟨hnode, hsegB⟩ := hsegM
  simp only [headIdOr_cons] at hsegA
  rcases eq_nil_or_append_one A with rfl | ⟨A₀, a, rfl⟩
  · -- the removed entry is the head of the list
    simp only [lastIdOr_nil] at hnode
    have hflat : (e.1 :: idsOf B).Nodup := by simpa using hnd
    obtain ⟨heB, hB⟩ := List.nodup_cons.mp hflat
    cases B with
    | nil =>
      have heq := removeNode_eq_nn hnode rfl rfl
      rw [heq]
      exact ⟨⟨trivial, rfl, rfl⟩, rfl⟩
    | cons b B' =>
      have heq := removeNode_eq_ns hnode rfl rfl
      rw [segOk_cons] at hsegB
      obtain ⟨hb, hsegB'⟩ := hsegB
      obtain ⟨hbB', -⟩ := List.nodup_cons.mp (by simpa using hB)
      have heb : e.1 ≠ b.1 := fun hc => heB (by simp [hc])
      rw [heq]
      refine ⟨⟨?_, rfl, ?_⟩, ?_⟩
      · rw [List.nil_append, segOk_cons]
        constructor
        · simp [getNode_eq hb]
        · refine segOk_congr (fun e' he' => ?_) hsegB'
          have : e'.1 ≠ b.1 := fun hc => hbB' (hc ▸ id_mem_idsOf he')
          simp [this]
      · simpa using htail
      · simp [heb]
  · -- the removed entry has a predecessor `a`
    rw [segOk_append, segOk_cons] at hsegA
    obtain ⟨hsegA₀, ha, -⟩ := hsegA
    simp only [headIdOr_cons, headIdOr_nil] at hsegA₀ ha
    rw [lastIdOr_concat] at hnode
    have hflat : (idsOf A₀ ++ a.1 :: e.1 :: idsOf B).Nodup := by
      simpa using hnd
    obtain ⟨haA₀, haRest, hflat2⟩ := nodup_middle_parts hflat
    obtain ⟨heA₀, heB, hA₀B⟩ := nodup_middle_parts hflat2
    have hae : a.1 ≠ e.1 := fun hc => haRest (by simp [hc])
    have hAne : A₀ ++ [a] ≠ ([] : List Entry) := by simp
    cases B with
    | nil =>
      have heq := removeNode_eq_sn hnode rfl rfl hae
      rw [heq]
      refine ⟨⟨?_, ?_, ?_⟩, ?_⟩
      · rw [List.append_nil, segOk_append, segOk_cons]
        refine ⟨?_, ?_, trivial⟩
        · refine segOk_congr (fun e' he' => ?_) hsegA₀
          have : e'.1 ≠ a.1 := fun hc => haA₀ (hc ▸ id_mem_idsOf he')
          simp [this, headIdOr_cons]
        · simp [getNode_eq ha]
      · rw [hhead, List.append_nil, headIdOr_append]
        exact headIdOr_indep hAne _ _
      · rw [List.append_nil, lastIdOr_concat]
      · have : e.1 ≠ a.1 := Ne.symm hae
        simp [this]
    | cons b B' =>
      rw [segOk_cons] at hsegB
      obtain ⟨hb, hsegB'⟩ := hsegB
      have hab : a.1 ≠ b.1 := fun hc => haRest (by simp [hc])
      have heb : e.1 ≠ b.1 := fun hc => heB (by simp [hc])
      obtain ⟨hbA₀, hbB', -⟩ := nodup_middle_parts
        (show (idsOf A₀ ++ b.1 :: idsOf B').Nodup by simpa using hA₀B)
      have heq := removeNode_eq_ss hnode rfl rfl hae hab
      rw [heq]
      refine ⟨⟨?_, ?_, ?_⟩, ?_⟩
      · rw [segOk_append, segOk_append, segOk_cons, segOk_cons]
        refine ⟨⟨?_, ?_, trivial⟩, ?_, ?_⟩
        · refine segOk_congr (fun e' he' => ?_) hsegA₀
          have h1 : e'.1 ≠ a.1 := fun hc => haA₀ (hc ▸ id_mem_idsOf he')
          have h2 : e'.1 ≠ b.1 := fun hc => hbA₀ (hc ▸ id_mem_idsOf he')
          simp [h1, h2]
        · simp [getNode_eq ha, hab, headIdOr_cons]
        · rw [lastIdOr_concat]
          simp [getNode_eq hb]
        · refine segOk_congr (fun e' he' => ?_) hsegB'
          have haB' : a.1 ∉ idsOf B' := fun hc => haRest (by simp [hc])
          have h1 : e'.1 ≠ a.1 := fun hc => haB' (hc ▸ id_mem_idsOf he')
          have h2 : e'.1 ≠ b.1 := fun hc => hbB' (hc ▸ id_mem_idsOf he')
          simp [h1, h2]
      · rw [hhead]
        exact (headIdOr_append ..).trans
          ((headIdOr_indep hAne _ _).trans (headIdOr_append ..).symm)
      · rw [htail]
        exact (lastIdOr_append ..).trans
          ((by simp : lastIdOr (e :: b :: B') (lastIdOr (A₀ ++ [a]) none)
              = lastIdOr (b :: B') (lastIdOr (A₀ ++ [a]) none)).trans
            (lastIdOr_append ..).symm)
      · have h1 : e.1 ≠ a.1 := Ne.symm hae
        simp [h1, heb]

/-- Adding a detached node at the head: the extended entry list is
again a well-linked picture. -/
theorem addToHead_spec {c : LRUCache} {E : List Entry} {i : Nat} {k v : String}
    {p0 q0 : Option Nat}
    (hL : ListRel c E) (hnd : (idsOf E).Nodup) (hi : i ∉ idsOf E)
    (hn : c.nodes i = some ⟨k, v, p0, q0⟩) :
    ListRel (c.addToHead i) ((i, k, v) :: E) := by
  obtain ⟨hseg, hhead, htail⟩ := hL
  cases E with
  | nil =>
    simp only [headIdOr_nil] at hhead
    simp only [lastIdOr_nil] at htail
    rw [addToHead_eq_empty hhead htail]
    refine ⟨?_, rfl, rfl⟩
    rw [segOk_cons]
    exact ⟨by simp [getNode_eq hn], trivial⟩
  | cons h' E' =>
    simp only [headIdOr_cons] at hhead
    have hih : i ≠ h'.1 := fun hc => hi (by simp [hc])
    obtain ⟨hiE', hndE'⟩ : i ∉ idsOf E' ∧ (idsOf E').Nodup := by
      constructor
      · exact fun hc => hi (by simp [hc])
      · exact (List.nodup_cons.mp (by simpa using hnd)).2
    have hh'E' : h'.1 ∉ idsOf E' := (List.nodup_cons.mp (by simpa using hnd)).1
    rw [segOk_cons] at hseg
    obtain ⟨hh', hsegE'⟩ := hseg
    obtain ⟨t, ht⟩ : ∃ t, lastIdOr E' (some h'.1) = some t := lastIdOr_some E' h'.1
    have htail' : c.Tail = some t := by
      rw [htail, lastIdOr_cons, ht]
    rw [addToHead_eq_cons hhead (Ne.symm hih) htail']
    refine ⟨?_, rfl, ?_⟩
    · rw [segOk_cons, segOk_cons]
      refine ⟨?_, ?_, ?_⟩
      · simp [getNode_eq hn, hih]
      · simp [getNode_eq hh', headIdOr_cons]
      · refine segOk_congr (fun e' he' => ?_) hsegE'
        have h1 : e'.1 ≠ h'.1 := fun hc => hh'E' (hc ▸ id_mem_idsOf he')
        have h2 : e'.1 ≠ i := fun hc => hiE' (hc ▸ id_mem_idsOf he')
        simp [h1, h2]
    · rw [htail]
      simp [lastIdOr_cons]

theorem idOfKey_middle_swap {A B : List Entry} {i : Nat} {k v : String}
    (hA : k ∉ keysOf A) (k' : String) :
    idOfKey (A ++ (i, k, v) :: B) k' = idOfKey ((i, k, v) :: (A ++ B)) k' := by
  by_cases hk : k = k'
  · subst hk
    rw [idOfKey_append_of_none hA, idOfKey_cons, idOfKey_cons]
    simp
  · rw [idOfKey_cons, if_neg hk]
    cases h : idOfKey A k' with
    | some j => rw [idOfKey_append_of_some h, idOfKey_append_of_some h]
    | none =>
      have hmem : k' ∉ keysOf A := (idOfKey_eq_none_iff A k').mp h
      rw [idOfKey_append_of_none hmem, idOfKey_append_of_none hmem,
        idOfKey_cons, if_neg hk]

/-- Lemma: `moveToHead` on the entry at position `A.length` yields the picture
with that entry moved to the front, and changes nothing else. -/
theorem moveToHead_rel {c : LRUCache} {A B : List Entry} {i : Nat} {k v : String}
    (hR : Rel c (A ++ (i, k, v) :: B)) :
    Rel (c.moveToHead i) ((i, k, v) :: (A ++ B)) := by
  obtain ⟨hseg, hhead, htail, hcache, hlen, hids, hkeys, hfresh⟩ := hR
  obtain ⟨hkA, hkB, hkAB⟩ :
      k ∉ keysOf A ∧ k ∉ keysOf B ∧ (keysOf A ++ keysOf B).Nodup :=
    nodup_middle_parts (by simpa using hkeys)
  obtain ⟨hiA, hiB, hids2⟩ :
      i ∉ idsOf A ∧ i ∉ idsOf B ∧ (idsOf A ++ idsOf B).Nodup :=
    nodup_middle_parts (by simpa using hids)
  by_cases hh : c.Head = some i
  · have hA : A = [] := by
      cases A with
      | nil => rfl
      | cons a A₀ =>
        exfalso
        rw [hhead] at hh
        simp only [List.cons_append, headIdOr_cons, Option.some.injEq] at hh
        exact hiA (by simp [← hh])
    subst hA
    rw [LRUCache.moveToHead, if_pos hh]
    simp only [List.nil_append] at hseg hhead htail hcache hlen hids hkeys hfresh ⊢
    exact ⟨hseg, hhead, htail, hcache, hlen, hids, hkeys, hfresh⟩
  · have hAne : A ≠ [] := by
      intro hc; subst hc
      rw [hhead] at hh
      simp [headIdOr_cons] at hh
    rw [moveToHead_of_ne hh]
    obtain ⟨hLrm, hnodesi⟩ :=
      removeNode_spec (e := (i, k, v)) ⟨hseg, hhead, htail⟩ hids
    have hni : c.nodes i = some ⟨k, v, lastIdOr A none, headIdOr B none⟩ := by
      have h0 := hseg
      rw [segOk_append, segOk_cons] at h0
      exact h0.2.1
    have hidsAB : (idsOf (A ++ B)).Nodup := by simpa using hids2
    have hiAB : i ∉ idsOf (A ++ B) := by
      simp only [idsOf_append, List.mem_append]
      exact fun hc => hc.elim hiA hiB
    have hListRel := addToHead_spec hLrm hidsAB hiAB (hnodesi.trans hni)
    refine ⟨hListRel.seg, hListRel.head_eq, hListRel.tail_eq, ?_, ?_, ?_, ?_, ?_⟩
    · intro k'
      have hC : ((c.removeNode i).addToHead i).Cache = c.Cache := by simp
      rw [hC, hcache k', idOfKey_middle_swap hkA k']
    · have hC : ((c.removeNode i).addToHead i).cacheLen = c.cacheLen := by simp
      rw [hC, hlen]
      simp
      omega
    · simp only [idsOf_cons, idsOf_append]
      refine List.nodup_cons.mpr ⟨?_, hids2⟩
      simp only [List.mem_append]
      exact fun hc => hc.elim hiA hiB
    · simp only [keysOf_cons, keysOf_append]
      refine List.nodup_cons.mpr ⟨?_, hkAB⟩
      simp only [List.mem_append]
      exact fun hc => hc.elim hkA hkB
    · intro e' he'
      have hfr : ((c.removeNode i).addToHead i).fresh = c.fresh := by simp
      rw [hfr]
      apply hfresh
      rcases List.mem_cons.mp he' with rfl | hmem
      · exact List.mem_append_right _ (List.mem_cons_self ..)
      · rcases List.mem_append.mp hmem with h1 | h1
        · exact List.mem_append_left _ h1
        · exact List.mem_append_right _ (List.mem_cons_of_mem _ h1)

/-! ### The public operations preserve the abstract picture -/

theorem Rel_key_decomp {c : LRUCache} {E : List Entry} {k : String}
    (hR : Rel c E) {i : Nat} (h : c.Cache k = some i) :
    ∃ A v B, E = A ++ (i, k, v) :: B := by
  rw [hR.cache_eq k] at h
  obtain ⟨A, v, B, rfl, -⟩ := idOfKey_some_decomp h
  exact ⟨A, v, B, rfl⟩

theorem Cache_some_of_middle {c : LRUCache} {A B : List Entry} {i : Nat}
    {k v : String} (hR : Rel c (A ++ (i, k, v) :: B)) :
    c.Cache k = some i := by
  have hkA : k ∉ keysOf A :=
    (nodup_middle_parts (by simpa using hR.keys_nodup)).1
  rw [hR.cache_eq k, idOfKey_append_of_none hkA, idOfKey_cons]
  simp

/-- A hit of `Get`: the stored value comes back with `found = true`, and
the state change is exactly the move of that entry to the front. -/
theorem Get_hit_rel {c : LRUCache} {A B : List Entry} {i : Nat} {k v : String}
    (hR : Rel c (A ++ (i, k, v) :: B)) :
    c.Get k = ((v, true), c.moveToHead i) ∧
    Rel (c.Get k).2 ((i, k, v) :: (A ++ B)) := by
  have hsome := Cache_some_of_middle hR
  have hmv := moveToHead_rel hR
  have hval : ((c.moveToHead i).getNode i).value = v := by
    have h0 := hmv.seg
    rw [segOk_cons] at h0
    rw [getNode_eq h0.1]
  refine ⟨?_, ?_⟩
  · rw [Get_eq_hit hsome, hval]
  · rw [Get_eq_hit hsome]
    exact hmv

/-- A miss of `Get` returns `("", false)` and the state is untouched. -/
theorem Get_miss_rel {c : LRUCache} {E : List Entry} {k : String}
    (hR : Rel c E) (hk : k ∉ keysOf E) :
    c.Get k = (("", false), c) :=
  Get_eq_miss ((hR.cache_eq k).trans ((idOfKey_eq_none_iff E k).mpr hk))

/-- Lemma: `Put` on an existing key: the value is overwritten in place and the
entry moves to the front; nothing else changes. -/
theorem Put_existing_rel {c : LRUCache} {A B : List Entry} {i : Nat}
    {k v0 : String} (hR : Rel c (A ++ (i, k, v0) :: B)) (v : String) :
    Rel (c.Put k v) ((i, k, v) :: (A ++ B)) := by
  have hsome := Cache_some_of_middle hR
  obtain ⟨hseg, hhead, htail, hcache, hlen, hids, hkeys, hfresh⟩ := hR
  have hkA : k ∉ keysOf A := (nodup_middle_parts (by simpa using hkeys)).1
  obtain ⟨hiA, hiB, -⟩ :
      i ∉ idsOf A ∧ i ∉ idsOf B ∧ (idsOf A ++ idsOf B).Nodup :=
    nodup_middle_parts (by simpa using hids)
  have hni : c.nodes i = some ⟨k, v0, lastIdOr A none, headIdOr B none⟩ := by
    have h0 := hseg
    rw [segOk_append, segOk_cons] at h0
    exact h0.2.1
  rw [Put_eq_existing v hsome]
  have hmid : Rel (c.setNode i { c.getNode i with value := v })
      (A ++ (i, k, v) :: B) := by
    refine ⟨?_, ?_, ?_, ?_, ?_, ?_, ?_, ?_⟩
    · rw [segOk_append, segOk_cons]
      have h0 := hseg
      rw [segOk_append, segOk_cons] at h0
      refine ⟨?_, ?_, ?_⟩
      · refine segOk_congr (fun e' he' => ?_) h0.1
        have : e'.1 ≠ i := fun hc => hiA (hc ▸ id_mem_idsOf he')
        simp [setNode_nodes, this]
      · simp [setNode_nodes, getNode_eq hni]
      · refine segOk_congr (fun e' he' => ?_) h0.2.2
        have : e'.1 ≠ i := fun hc => hiB (hc ▸ id_mem_idsOf he')
        simp [setNode_nodes, this]
    · rw [setNode_Head, hhead, headIdOr_append, headIdOr_append]
      simp [headIdOr_cons]
    · rw [setNode_Tail, htail, lastIdOr_append, lastIdOr_append]
      simp [lastIdOr_cons]
    · intro k'
      rw [setNode_Cache, hcache k', idOfKey_middle_swap hkA k',
        idOfKey_middle_swap hkA k', idOfKey_cons, idOfKey_cons]
    · rw [setNode_cacheLen, hlen]
      simp
    · simpa using hids
    · simpa using hkeys
    · intro e' he'
      rw [setNode_fresh]
      rcases List.mem_append.mp he' with h1 | h1
      · exact hfresh e' (List.mem_append_left _ h1)
      · rcases List.mem_cons.mp h1 with rfl | h2
        · exact hfresh (i, k, v0) (List.mem_append_right _ (List.mem_cons_self ..))
        · exact hfresh e' (List.mem_append_right _ (List.mem_cons_of_mem _ h2))
  exact moveToHead_rel hmid

/-- Inserting a brand-new key at the fresh identifier (the second half
of the new-key branch of `Put`). -/
theorem insertFresh_rel {c : LRUCache} {E : List Entry} {k : String}
    (v : String) (f : Nat) (hf : f = c.fresh) (hR : Rel c E)
    (hk : k ∉ keysOf E) :
    Rel (LRUCache.addToHead { c with
      Cache := fun k2 => if k2 = k then some c.fresh else c.Cache k2,
      nodes := fun j => if j = c.fresh then some ⟨k, v, none, none⟩
               else c.nodes j,
      cacheLen := c.cacheLen + 1,
      fresh := c.fresh + 1 } c.fresh) ((f, k, v) :: E) := by
  subst hf
  obtain ⟨hseg, hhead, htail, hcache, hlen, hids, hkeys, hfresh⟩ := hR
  have hfE : c.fresh ∉ idsOf E := by
    intro hc
    obtain ⟨e', he', hid⟩ := List.mem_map.mp hc
    exact absurd (hid ▸ hfresh e' he') (lt_irrefl _)
  set c2 : LRUCache := { c with
      Cache := fun k2 => if k2 = k then some c.fresh else c.Cache k2,
      nodes := fun j => if j = c.fresh then some ⟨k, v, none, none⟩
               else c.nodes j,
      cacheLen := c.cacheLen + 1,
      fresh := c.fresh + 1 } with hc2
  have hLR2 : ListRel c2 E := by
    refine ⟨?_, hhead, htail⟩
    refine segOk_congr (fun e' he' => ?_) hseg
    have : e'.1 ≠ c.fresh := fun hc => hfE (hc ▸ id_mem_idsOf he')
    simp [hc2, this]
  have hn2 : c2.nodes c.fresh = some ⟨k, v, none, none⟩ := by
    rw [hc2]
    simp
  have h2 := addToHead_spec hLR2 hids hfE hn2
  refine ⟨h2.seg, h2.head_eq, h2.tail_eq, ?_, ?_, ?_, ?_, ?_⟩
  · intro k'
    have hC : ∀ x : LRUCache, (x.addToHead c.fresh).Cache = x.Cache :=
      fun x => addToHead_Cache x _
    rw [hC]
    show (if k' = k then some c.fresh else c.Cache k')
      = idOfKey ((c.fresh, k, v) :: E) k'
    rw [idOfKey_cons]
    by_cases hkk : k' = k
    · subst hkk
      simp
    · simp only [if_neg hkk, if_neg (Ne.symm hkk)]
      exact hcache k'
  · have hC : ∀ x : LRUCache, (x.addToHead c.fresh).cacheLen = x.cacheLen :=
      fun x => addToHead_cacheLen x _
    rw [hC]
    show c.cacheLen + 1 = _
    simp [hlen]
  · simp only [idsOf_cons]
    exact List.nodup_cons.mpr ⟨hfE, hids⟩
  · simp only [keysOf_cons]
    exact List.nodup_cons.mpr ⟨hk, hkeys⟩
  · intro e' he'
    have hC : ∀ x : LRUCache, (x.addToHead c.fresh).fresh = x.fresh :=
      fun x => addToHead_fresh x _
    rw [hC]
    show e'.1 < c.fresh + 1
    rcases List.mem_cons.mp he' with rfl | hmem
    · simp
    · exact Nat.lt_succ_of_lt (hfresh e' hmem)

/-- Lemma: `Put` of a new key when the cache is below capacity: no eviction,
the new entry appears at the front. -/
theorem Put_new_noevict_rel {c : LRUCache} {E : List Entry} {k : String}
    (v : String) (hR : Rel c E) (hk : k ∉ keysOf E)
    (hsz : ¬(c.cacheLen : Int) ≥ c.Capacity) :
    Rel (c.Put k v) ((c.fresh, k, v) :: E) := by
  have hnone : c.Cache k = none :=
    (hR.cache_eq k).trans ((idOfKey_eq_none_iff E k).mpr hk)
  rw [Put_eq_new v hnone, evictLRU_of_small hsz]
  exact insertFresh_rel v c.fresh rfl hR hk

/-- Lemma: `Put` of a new key into an (impossibly, over-) full empty cache:
the tail is absent, so nothing is evicted. -/
theorem Put_new_empty_rel {c : LRUCache} {k : String} (v : String)
    (hR : Rel c []) (hsz : (c.cacheLen : Int) ≥ c.Capacity) :
    Rel (c.Put k v) [(c.fresh, k, v)] := by
  have hnone : c.Cache k = none := by rw [hR.cache_eq k]; rfl
  have htail : c.Tail = none := by
    have := hR.tail_eq
    simpa using this
  rw [Put_eq_new v hnone, evictLRU_of_big_noTail hsz htail]
  exact insertFresh_rel v c.fresh rfl hR (by simp)

/-- The eviction block of `Put` on a full cache: the last entry is
unlinked and its key removed from the map. -/
theorem evictLRU_rel_of_full {c : LRUCache} {A : List Entry} {t : Entry}
    (hR : Rel c (A ++ [t])) (hsz : (c.cacheLen : Int) ≥ c.Capacity) :
    Rel c.evictLRU A := by
  have htail : c.Tail = some t.1 := by rw [hR.tail_eq, lastIdOr_concat]
  obtain ⟨hseg, hhead, htailr, hcache, hlen, hids, hkeys, hfresh⟩ := hR
  have htkA : t.2.1 ∉ keysOf A :=
    (nodup_middle_parts (show (keysOf A ++ t.2.1 :: []).Nodup by
      simpa using hkeys)).1
  have hnt : c.nodes t.1 = some ⟨t.2.1, t.2.2, lastIdOr A none, none⟩ := by
    have h0 := hseg
    rw [segOk_append, segOk_cons] at h0
    simpa using h0.2.1
  obtain ⟨hLrm, hnodes_t⟩ :=
    removeNode_spec (B := []) ⟨hseg, hhead, htailr⟩ hids
  rw [List.append_nil] at hLrm
  have hkey : ((c.removeNode t.1).getNode t.1).key = t.2.1 := by
    rw [getNode_eq (hnodes_t.trans hnt)]
  have hcachet : (c.removeNode t.1).Cache t.2.1 = some t.1 := by
    rw [removeNode_Cache, hcache, idOfKey_append_of_none htkA, idOfKey_cons]
    simp
  rw [evictLRU_of_big hsz htail, hkey, eraseKey_of_some hcachet]
  refine ⟨hLrm.seg, hLrm.head_eq, hLrm.tail_eq, ?_, ?_, ?_, ?_, ?_⟩
  · intro k2
    show (if k2 = t.2.1 then none else (c.removeNode t.1).Cache k2)
      = idOfKey A k2
    by_cases hk2 : k2 = t.2.1
    · rw [if_pos hk2, hk2]
      exact ((idOfKey_eq_none_iff A _).mpr htkA).symm
    · rw [if_neg hk2, removeNode_Cache, hcache]
      cases h : idOfKey A k2 with
      | some j => rw [idOfKey_append_of_some h]
      | none =>
        rw [idOfKey_append_of_none ((idOfKey_eq_none_iff A k2).mp h),
          idOfKey_cons, if_neg (fun hc => hk2 hc.symm)]
        simp [h]
  · show (c.removeNode t.1).cacheLen - 1 = A.length
    rw [removeNode_cacheLen, hlen]
    simp
  · exact (List.nodup_append.mp (by simpa using hids)).1
  · exact (List.nodup_append.mp (by simpa using hkeys)).1
  · intro e' he'
    show e'.1 < (c.removeNode t.1).fresh
    rw [removeNode_fresh]
    exact hfresh e' (List.mem_append_left _ he')

/-- Lemma: `Put` of a new key at capacity: the tail entry is evicted first and
the new entry appears at the front. -/
theorem Put_new_evict_rel {c : LRUCache} {A : List Entry} {t : Entry}
    {k : String} (v : String) (hR : Rel c (A ++ [t]))
    (hk : k ∉ keysOf (A ++ [t]))
    (hsz : (c.cacheLen : Int) ≥ c.Capacity) :
    Rel (c.Put k v) ((c.fresh, k, v) :: A) := by
  have hnone : c.Cache k = none :=
    (hR.cache_eq k).trans ((idOfKey_eq_none_iff _ k).mpr hk)
  have hev := evictLRU_rel_of_full hR hsz
  have hkA : k ∉ keysOf A := fun hc => hk (by simp [hc])
  have hfr : c.fresh = c.evictLRU.fresh := by simp
  rw [Put_eq_new v hnone]
  exact insertFresh_rel v c.fresh hfr hev hkA

/-- Lemma: `Clear` yields the empty picture. -/
theorem Clear_rel (c : LRUCache) : Rel c.Clear [] :=
  ⟨trivial, rfl, rfl, fun _ => rfl, rfl, List.nodup_nil, List.nodup_nil,
    by simp⟩

theorem NewLRUCache_ok {cap : Int} {c : LRUCache}
    (h : NewLRUCache cap = .ok c) :
    1 ≤ cap ∧ c = ⟨cap, none, none, fun _ => none, fun _ => none, 0, 0⟩ := by
  unfold NewLRUCache at h
  split at h
  · exact absurd h (by simp)
  · rename_i hcap
    refine ⟨by omega, ?_⟩
    cases h
    rfl

theorem NewLRUCache_err {cap : Int} (h : cap ≤ 0) :
    NewLRUCache cap = .error "invalid capacity: must be greater than 0" := by
  unfold NewLRUCache
  rw [if_pos h]

theorem Rel_init (cap : Int) :
    Rel ⟨cap, none, none, fun _ => none, fun _ => none, 0, 0⟩ [] :=
  ⟨trivial, rfl, rfl, fun _ => rfl, rfl, List.nodup_nil, List.nodup_nil,
    by simp⟩

@[simp] theorem Put_Capacity (c : LRUCache) (k v : String) :
    (c.Put k v).Capacity = c.Capacity := by
  unfold LRUCache.Put
  split <;> simp

@[simp] theorem Get_Capacity (c : LRUCache) (k : String) :
    (c.Get k).2.Capacity = c.Capacity := by
  unfold LRUCache.Get
  split <;> simp

@[simp] theorem Clear_Capacity (c : LRUCache) :
    c.Clear.Capacity = c.Capacity := rfl

@[simp] theorem Put_fresh_ge (c : LRUCache) (k v : String) :
    c.fresh ≤ (c.Put k v).fresh := by
  unfold LRUCache.Put
  split <;> simp

/-- One `Put`, whatever branch it takes, preserves the picture; the
entry count grows by at most one and does not grow at all when the
cache was full and nonempty. -/
theorem Put_inv {c : LRUCache} {E : List Entry} (k v : String)
    (hR : Rel c E) :
    ∃ E', Rel (c.Put k v) E' ∧ E'.length ≤ E.length + 1 ∧
      ((E.length : Int) ≥ c.Capacity → E ≠ [] → E'.length ≤ E.length) := by
  cases hck : c.Cache k with
  | some i =>
    obtain ⟨A, v0, B, rfl⟩ := Rel_key_decomp hR hck
    refine ⟨(i, k, v) :: (A ++ B), Put_existing_rel hR v, ?_, ?_⟩ <;>
      simp <;> omega
  | none =>
    have hk : k ∉ keysOf E := by
      rw [hR.cache_eq k] at hck
      exact (idOfKey_eq_none_iff E k).mp hck
    by_cases hsz : (c.cacheLen : Int) ≥ c.Capacity
    · rcases eq_nil_or_append_one E with rfl | ⟨A, t, rfl⟩
      · refine ⟨[(c.fresh, k, v)], Put_new_empty_rel v hR hsz, by simp, ?_⟩
        intro _ hne
        exact absurd rfl hne
      · refine ⟨(c.fresh, k, v) :: A, Put_new_evict_rel v hR hk hsz, ?_, ?_⟩ <;>
          simp <;> omega
    · refine ⟨(c.fresh, k, v) :: E, Put_new_noevict_rel v hR hk hsz, by simp, ?_⟩
      intro hlen _
      rw [hR.len_eq] at hsz
      exact absurd hlen hsz

/-- One `Get`, hit or miss, preserves the picture, the entry count and
the key set. -/
theorem Get_inv {c : LRUCache} {E : List Entry} (k : String)
    (hR : Rel c E) :
    ∃ E', Rel (c.Get k).2 E' ∧ E'.length = E.length ∧
      (∀ k', k' ∈ keysOf E' ↔ k' ∈ keysOf E) := by
  cases hck : c.Cache k with
  | some i =>
    obtain ⟨A, v, B, rfl⟩ := Rel_key_decomp hR hck
    refine ⟨(i, k, v) :: (A ++ B), (Get_hit_rel hR).2, by simp; omega, ?_⟩
    intro k'
    simp only [keysOf_cons, keysOf_append, List.mem_append, List.mem_cons]
    tauto
  | none =>
    have hk : k ∉ keysOf E := by
      rw [hR.cache_eq k] at hck
      exact (idOfKey_eq_none_iff E k).mp hck
    rw [Get_miss_rel hR hk]
    exact ⟨E, hR, rfl, fun _ => Iff.rfl⟩

/-- The state between eviction and insertion in the new-key branch of
`Put` holds strictly fewer entries than the capacity. -/
theorem evictLRU_size_lt {c : LRUCache} {E : List Entry} (hR : Rel c E)
    (hlen : (E.length : Int) ≤ c.Capacity) (hcap : 1 ≤ c.Capacity) :
    (c.evictLRU.cacheLen : Int) < c.Capacity := by
  by_cases hsz : (c.cacheLen : Int) ≥ c.Capacity
  · have hlen_eq := hR.len_eq
    have hEne : E ≠ [] := by
      intro hc
      subst hc
      rw [hlen_eq] at hsz
      simp at hsz
      omega
    rcases eq_nil_or_append_one E with rfl | ⟨A, t, rfl⟩
    · exact absurd rfl hEne
    · have hev := evictLRU_rel_of_full hR hsz
      rw [hev.len_eq]
      have h1 : (A ++ [t]).length = A.length + 1 := by simp
      rw [hlen_eq, h1] at hsz
      push_cast at hsz ⊢
      omega
  · push_neg at hsz
    calc (c.evictLRU.cacheLen : Int) = c.cacheLen := by
          rw [evictLRU_of_small (by omega)]
      _ < c.Capacity := hsz

/-! ### Sequences of operations -/

/-- A sequence of `Put` calls, applied in order. -/
def putFold (c : LRUCache) (ps : List (String × String)) : LRUCache :=
  ps.foldl (fun s p => s.Put p.1 p.2) c

@[simp] theorem putFold_nil (c : LRUCache) : putFold c [] = c := rfl

@[simp] theorem putFold_cons (c : LRUCache) (p : String × String)
    (ps : List (String × String)) :
    putFold c (p :: ps) = putFold (c.Put p.1 p.2) ps := rfl

@[simp] theorem putFold_Capacity (c : LRUCache) (ps : List (String × String)) :
    (putFold c ps).Capacity = c.Capacity := by
  induction ps generalizing c with
  | nil => rfl
  | cons p ps ih => rw [putFold_cons, ih, Put_Capacity]

theorem Has_iff_rel {c : LRUCache} {E : List Entry} (hR : Rel c E)
    (k : String) : c.Has k = true ↔ k ∈ keysOf E := by
  unfold LRUCache.Has
  rw [hR.cache_eq k]
  exact idOfKey_isSome_iff E k

theorem Has_false_iff_rel {c : LRUCache} {E : List Entry} (hR : Rel c E)
    (k : String) : c.Has k = false ↔ k ∉ keysOf E := by
  rw [← Has_iff_rel hR k]
  cases c.Has k <;> simp

/-- Any sequence of `Put` calls keeps the picture within capacity. -/
theorem putFold_inv (ps : List (String × String)) :
    ∀ {c : LRUCache} {E : List Entry}, Rel c E →
      (E.length : Int) ≤ c.Capacity → 1 ≤ c.Capacity →
      ∃ E', Rel (putFold c ps) E' ∧ (E'.length : Int) ≤ c.Capacity := by
  induction ps with
  | nil => exact fun hR hlen _ => ⟨_, hR, hlen⟩
  | cons p ps ih =>
    intro c E hR hlen hcap
    obtain ⟨E1, hR1, hb1, hb2⟩ := Put_inv p.1 p.2 hR
    have hcapP : (c.Put p.1 p.2).Capacity = c.Capacity := by simp
    have hlen1 : (E1.length : Int) ≤ (c.Put p.1 p.2).Capacity := by
      rw [hcapP]
      by_cases h : (E.length : Int) ≥ c.Capacity
      · have hEne : E ≠ [] := by
          intro hc
          subst hc
          simp at h
          omega
        have := hb2 h hEne
        omega
      · push_neg at h
        omega
    obtain ⟨E', hR', hlen'⟩ := ih hR1 hlen1 (by rw [hcapP]; exact hcap)
    rw [hcapP] at hlen'
    exact ⟨E', by rwa [putFold_cons], hlen'⟩

/-- Distinct brand-new keys pushed by `Put`: the surviving keys are the
most recent `capacity` many, most recent first. -/
theorem putFold_new_keys (ps : List (String × String)) :
    ∀ {c : LRUCache} {E : List Entry}, Rel c E →
      (ps.map Prod.fst).Nodup →
      (∀ p ∈ ps, p.1 ∉ keysOf E) →
      (E.length : Int) ≤ c.Capacity → 1 ≤ c.Capacity →
      ∃ E', Rel (putFold c ps) E' ∧
        keysOf E' = ((ps.map Prod.fst).reverse ++ keysOf E).take c.Capacity.toNat ∧
        (E'.length : Int) ≤ c.Capacity := by
  induction ps with
  | nil =>
    intro c E hR _ _ hlen hcap
    refine ⟨E, hR, ?_, hlen⟩
    rw [List.map_nil, List.reverse_nil, List.nil_append,
      List.take_of_length_le]
    have : (keysOf E).length = E.length := List.length_map ..
    omega
  | cons p ps ih =>
    intro c E hR hnd hnew hlen hcap
    have hkE : p.1 ∉ keysOf E := hnew p (List.mem_cons_self ..)
    rw [List.map_cons] at hnd
    obtain ⟨hp_ps, hnd'⟩ := List.nodup_cons.mp hnd
    have hcapP : (c.Put p.1 p.2).Capacity = c.Capacity := by simp
    by_cases hsz : (c.cacheLen : Int) ≥ c.Capacity
    · -- full: the length must be exactly the capacity and `E` nonempty
      have hlen_eq := hR.len_eq
      have hEne : E ≠ [] := by
        intro hc
        subst hc
        rw [hlen_eq] at hsz
        simp at hsz
        omega
      obtain rfl | ⟨A, t, rfl⟩ := eq_nil_or_append_one E
      · exact absurd rfl hEne
      · have hR1 := Put_new_evict_rel p.2 hR hkE hsz
        have hnew1 : ∀ q ∈ ps, q.1 ∉ keysOf ((c.fresh, p.1, p.2) :: A) := by
          intro q hq
          simp only [keysOf_cons, List.mem_cons, not_or]
          refine ⟨fun hc => hp_ps (hc ▸ List.mem_map_of_mem _ hq), ?_⟩
          intro hc
          exact hnew q (List.mem_cons_of_mem _ hq) (by simp [hc])
        have hlen1 : (((c.fresh, p.1, p.2) :: A).length : Int)
            ≤ (c.Put p.1 p.2).Capacity := by
          rw [hcapP]
          have : (A ++ [t]).length = A.length + 1 := by simp
          rw [hlen_eq, this] at hsz
          simp only [List.length_cons]
          push_cast at hsz ⊢
          omega
        obtain ⟨E', hR', hkeys', hlen'⟩ :=
          ih hR1 hnd' hnew1 hlen1 (by rw [hcapP]; exact hcap)
        rw [hcapP] at hlen'
        refine ⟨E', by rwa [putFold_cons], ?_, hlen'⟩
        rw [hkeys', hcapP]
        -- the two take arguments agree because the dropped tail key is
        -- beyond the capacity cutoff
        have hAlen : (A.length : Int) + 1 ≤ c.Capacity := by
          have h2 : (A ++ [t]).length = A.length + 1 := by simp
          rw [h2] at hlen
          push_cast at hlen
          omega
        have hAlen2 : (A.length : Int) + 1 ≥ c.Capacity := by
          have h2 : (A ++ [t]).length = A.length + 1 := by simp
          rw [hlen_eq, h2] at hsz
          push_cast at hsz
          omega
        have hXlen : ((ps.map Prod.fst).reverse ++ p.1 :: keysOf A).length
            = ps.length + 1 + A.length := by
          simp [keysOf]
          omega
        have hX : (((p :: ps).map Prod.fst).reverse ++ keysOf (A ++ [t]))
            = ((ps.map Prod.fst).reverse ++ p.1 :: keysOf A) ++ [t.2.1] := by
          simp [keysOf, List.reverse_cons]
        have hcut : c.Capacity.toNat
            ≤ ((ps.map Prod.fst).reverse ++ p.1 :: keysOf A).length := by
          rw [hXlen]
          omega
        rw [hX, List.take_append_of_le_length hcut]
        have hck : keysOf ((c.fresh, p.1, p.2) :: A) = p.1 :: keysOf A := rfl
        rw [hck]
    · -- below capacity: no eviction
      have hR1 := Put_new_noevict_rel p.2 hR hkE hsz
      have hnew1 : ∀ q ∈ ps, q.1 ∉ keysOf ((c.fresh, p.1, p.2) :: E) := by
        intro q hq
        simp only [keysOf_cons, List.mem_cons, not_or]
        exact ⟨fun hc => hp_ps (hc ▸ List.mem_map_of_mem _ hq),
          hnew q (List.mem_cons_of_mem _ hq)⟩
      have hlen1 : (((c.fresh, p.1, p.2) :: E).length : Int)
          ≤ (c.Put p.1 p.2).Capacity := by
        rw [hcapP]
        push_neg at hsz
        rw [hR.len_eq] at hsz
        simp only [List.length_cons]
        push_cast
        omega
      obtain ⟨E', hR', hkeys', hlen'⟩ :=
        ih hR1 hnd' hnew1 hlen1 (by rw [hcapP]; exact hcap)
      rw [hcapP] at hlen'
      refine ⟨E', by rwa [putFold_cons], ?_, hlen'⟩
      rw [hkeys', hcapP]
      congr 1
      simp

/-! ### Facts about `BatchGet` (modelled from the spec) -/

theorem lookup_cons_if (k : String) (p : String × String)
    (m : List (String × String)) :
    (p :: m).lookup k = if k = p.1 then some p.2 else m.lookup k := by
  rw [List.lookup_cons]
  by_cases h : k = p.1
  · simp [h]
  · rw [if_neg h, show (k == p.1) = false from beq_false_of_ne h]

theorem lookup_upsert_self (m : List (String × String)) (k v : String) :
    (upsert m k v).lookup k = some v := by
  induction m with
  | nil => simp [upsert, lookup_cons_if]
  | cons p m ih =>
    by_cases h : p.1 = k
    · simp [upsert, h, lookup_cons_if]
    · simp only [upsert, h, if_false]
      rw [lookup_cons_if, if_neg (by simpa using Ne.symm h)]
      exact ih

theorem lookup_upsert_other (m : List (String × String)) {k k2 : String}
    (h : k2 ≠ k) (v : String) :
    (upsert m k v).lookup k2 = m.lookup k2 := by
  induction m with
  | nil => simp [upsert, lookup_cons_if, h]
  | cons p m ih =>
    by_cases hp : p.1 = k
    · simp only [upsert, hp, if_true]
      rw [lookup_cons_if, lookup_cons_if, if_neg (by simpa using h),
        if_neg (by simpa [hp] using h)]
    · simp only [upsert, hp, if_false]
      rw [lookup_cons_if, lookup_cons_if]
      by_cases hk2 : k2 = p.1
      · simp [hk2]
      · rw [if_neg (by simpa using hk2), if_neg (by simpa using hk2)]
        exact ih

theorem upsert_ne_nil (m : List (String × String)) (k v : String) :
    upsert m k v ≠ [] := by
  cases m with
  | nil => simp [upsert]
  | cons p m =>
    by_cases h : p.1 = k <;> simp [upsert, h]

theorem batch_fold_nil_iff (keys : List String) :
    ∀ (m : List (String × String)) (c : LRUCache),
      (keys.foldl batchStep (m, c)).1 = [] ↔ keys = [] ∧ m = [] := by
  induction keys with
  | nil => intro m c; simp
  | cons k2 ks ih =>
    intro m c
    rw [List.foldl_cons]
    show (ks.foldl batchStep (upsert m k2 _, _)).1 = [] ↔ _
    rw [ih]
    simp [upsert_ne_nil]

theorem batch_fold_state (keys : List String) :
    ∀ (m : List (String × String)) (c : LRUCache),
      (keys.foldl batchStep (m, c)).2
        = keys.foldl (fun s k2 => (s.Get k2).2) c := by
  induction keys with
  | nil => intro m c; rfl
  | cons k2 ks ih =>
    intro m c
    rw [List.foldl_cons, List.foldl_cons]
    exact ih _ _

theorem batch_fold_frozen (keys : List String) :
    ∀ (m : List (String × String)) (c : LRUCache) (k2 : String),
      k2 ∉ keys →
      (keys.foldl batchStep (m, c)).1.lookup k2 = m.lookup k2 := by
  induction keys with
  | nil => intro m c k2 _; rfl
  | cons kh ks ih =>
    intro m c k2 hk2
    rw [List.foldl_cons]
    have h1 : k2 ∉ ks := fun hc => hk2 (List.mem_cons_of_mem _ hc)
    have h2 : k2 ≠ kh := fun hc => hk2 (hc ▸ List.mem_cons_self ..)
    rw [ih _ _ _ h1]
    exact lookup_upsert_other m h2 _

theorem batch_fold_isSome (keys : List String) :
    ∀ (m : List (String × String)) (c : LRUCache), ∀ k2 ∈ keys,
      ((keys.foldl batchStep (m, c)).1.lookup k2).isSome = true := by
  induction keys with
  | nil => intro m c k2 h; simp at h
  | cons kh ks ih =>
    intro m c k2 hk2
    rw [List.foldl_cons]
    by_cases h1 : k2 ∈ ks
    · exact ih _ _ k2 h1
    · have h2 : k2 = kh := by
        rcases List.mem_cons.mp hk2 with h | h
        · exact h
        · exact absurd h h1
      subst h2
      rw [show batchStep (m, c) k2
          = (upsert m k2 (c.Get k2).1.1, (c.Get k2).2) from rfl]
      rw [batch_fold_frozen ks _ _ _ h1, lookup_upsert_self]
      rfl

theorem batch_fold_miss (keys : List String) :
    ∀ (m : List (String × String)) (c : LRUCache) (E : List Entry),
      Rel c E → ∀ k2 ∈ keys, k2 ∉ keysOf E →
      (keys.foldl batchStep (m, c)).1.lookup k2 = some "" := by
  induction keys with
  | nil => intro m c E _ k2 h; simp at h
  | cons kh ks ih =>
    intro m c E hR k2 hk2 hmiss
    obtain ⟨E1, hR1, -, hmem⟩ := Get_inv kh hR
    rw [List.foldl_cons]
    by_cases h1 : k2 ∈ ks
    · exact ih _ _ E1 hR1 k2 h1 (fun hc => hmiss ((hmem k2).mp hc))
    · have h2 : k2 = kh := by
        rcases List.mem_cons.mp hk2 with h | h
        · exact h
        · exact absurd h h1
      subst h2
      rw [show batchStep (m, c) k2
          = (upsert m k2 (c.Get k2).1.1, (c.Get k2).2) from rfl]
      rw [batch_fold_frozen ks _ _ _ h1]
      have hget : (c.Get k2).1.1 = "" := by
        rw [Get_miss_rel hR hmiss]
      rw [hget, lookup_upsert_self]

@[simp] theorem addToHead_Head (c : LRUCache) (i : Nat) :
    (c.addToHead i).Head = some i := by
  unfold LRUCache.addToHead
  dsimp only
  split <;> split <;> rfl

theorem moveToHead_Head (c : LRUCache) (i : Nat) :
    (c.moveToHead i).Head = some i := by
  unfold LRUCache.moveToHead
  split
  · assumption
  · rw [addToHead_Head]

/-- The canonical empty cache of a given capacity (what a successful
`NewLRUCache` returns). -/
def emptyCache (cap : Int) : LRUCache :=
  ⟨cap, none, none, fun _ => none, fun _ => none, 0, 0⟩

/-!
## The claims
-/

/-- C1: for every cache constructed with capacity `c > 0` and every
sequence of `Put` calls, after each `Put` the entry count satisfies
`0 ≤ Size() ≤ c`; moreover the state inside any `Put` between the
eviction block and the insertion (`evictLRU`) holds strictly fewer than
`c` entries, so no intermediate state of a `Put` ever holds more than
`c` entries — eviction happens before insertion. -/
theorem C1_capacity_invariant (cap : Int) (s0 : LRUCache)
    (h0 : NewLRUCache cap = .ok s0) (ps : List (String × String)) :
    0 ≤ ((putFold s0 ps).Size : Int) ∧
    ((putFold s0 ps).Size : Int) ≤ cap ∧
    (((putFold s0 ps).evictLRU.Size : Int) < cap) := by
  obtain ⟨hcap, rfl⟩ := NewLRUCache_ok h0
  obtain ⟨E', hR', hlen'⟩ := putFold_inv ps (Rel_init cap)
    (by simp; omega) hcap
  have hput_cap :
      (putFold ⟨cap, none, none, fun _ => none, fun _ => none, 0, 0⟩
        ps).Capacity = cap := by
    rw [putFold_Capacity]
  refine ⟨Int.natCast_nonneg _, ?_, ?_⟩
  · show ((putFold _ ps).cacheLen : Int) ≤ cap
    rw [hR'.len_eq]
    exact hlen'
  · have h := evictLRU_size_lt hR' (by rw [hput_cap]; exact hlen')
      (by rw [hput_cap]; exact hcap)
    rw [hput_cap] at h
    exact h

/-- C2: the state-transforming operations `Get`, `Put` and `Clear`
preserve the structural invariants of the cache, packaged as
`Inv c = ∃ E, Rel c E`: the map sends each key to exactly one node of
the chain and every chain node is indexed by its key (`cache_eq` plus
`keys_nodup`/`ids_nodup`), the map's size equals the chain's length
(`len_eq`), and the chain reachable from `Head` is a simple doubly
linked list — the head has no predecessor, the tail no successor, and
every neighbour pair points at each other (`seg`, `head_eq`,
`tail_eq`).  `Has`, `Size` and `IsEmpty` take no write lock in the
source and are embedded as pure functions `LRUCache → …` that return no
state at all, so they preserve every invariant by construction. -/
theorem C2_invariants_preserved (c : LRUCache) (h : Inv c) (k v : String) :
    Inv (c.Get k).2 ∧ Inv (c.Put k v) ∧ Inv c.Clear := by
  obtain ⟨E, hR⟩ := h
  refine ⟨?_, ?_, ⟨[], Clear_rel c⟩⟩
  · obtain ⟨E', hR', -, -⟩ := Get_inv k hR
    exact ⟨E', hR'⟩
  · obtain ⟨E', hR', -, -⟩ := Put_inv k v hR
    exact ⟨E', hR'⟩

/-- C3: inserting `capacity + 1` distinct keys in order with no
intervening `Get` evicts exactly the first key: `Has` is `false` for it
and `true` for every later key.  (With `capacity = 1` this specialises
to: every `Put` of a new key evicts the single existing entry.) -/
theorem C3_eviction_order (cap : Int) (s0 : LRUCache)
    (h0 : NewLRUCache cap = .ok s0)
    (p1 : String × String) (rest : List (String × String))
    (hnodup : ((p1 :: rest).map Prod.fst).Nodup)
    (hlen : (((p1 :: rest).length : Nat) : Int) = cap + 1) :
    (putFold s0 (p1 :: rest)).Has p1.1 = false ∧
    (∀ p ∈ rest, (putFold s0 (p1 :: rest)).Has p.1 = true) := by
  obtain ⟨hcap, rfl⟩ := NewLRUCache_ok h0
  obtain ⟨E', hR', hkeys', -⟩ := putFold_new_keys (p1 :: rest) (Rel_init cap)
    hnodup (by intro p hp; simp) (by simp; omega) hcap
  rw [show keysOf ([] : List Entry) = [] from rfl, List.append_nil,
    List.map_cons, List.reverse_cons] at hkeys'
  have hlenN : ((rest.map Prod.fst).reverse).length = cap.toNat := by
    rw [List.length_reverse, List.length_map]
    simp only [List.length_cons] at hlen
    omega
  rw [List.take_left' hlenN] at hkeys'
  constructor
  · rw [Has_false_iff_rel hR' p1.1, hkeys']
    obtain ⟨hp1, -⟩ := List.nodup_cons.mp (List.map_cons .. ▸ hnodup)
    simpa [List.mem_reverse] using hp1
  · intro p hp
    rw [Has_iff_rel hR' p.1, hkeys']
    rw [List.mem_reverse]
    exact List.mem_map_of_mem _ hp

/-- C4: a `Get` of a present key returns the stored value with
`found = true` and, as its only state change, moves that entry to the
front of the recency list (the picture of the new state is exactly the
old entry list with that entry moved to the front).  Concretely, with
capacity 3 and keys A, B, C inserted in that order, `Get A` then
`Put D` evicts B, not A. -/
theorem C4_get_refreshes_recency (c : LRUCache) (A B : List Entry)
    (i : Nat) (k v : String) (hR : Rel c (A ++ (i, k, v) :: B)) :
    (c.Get k).1 = (v, true) ∧
    Rel (c.Get k).2 ((i, k, v) :: (A ++ B)) ∧
    (∀ s0, NewLRUCache 3 = .ok s0 →
      ((((((s0.Put "A" "1").Put "B" "2").Put "C" "3").Get "A").2.Put
          "D" "4").Has "B" = false ∧
       (((((s0.Put "A" "1").Put "B" "2").Put "C" "3").Get "A").2.Put
          "D" "4").Has "A" = true ∧
       (((((s0.Put "A" "1").Put "B" "2").Put "C" "3").Get "A").2.Put
          "D" "4").Has "C" = true ∧
       (((((s0.Put "A" "1").Put "B" "2").Put "C" "3").Get "A").2.Put
          "D" "4").Has "D" = true)) := by
  obtain ⟨hget, hrel⟩ := Get_hit_rel hR
  refine ⟨by rw [hget], hrel, ?_⟩
  intro s0 h0
  obtain ⟨-, rfl⟩ := NewLRUCache_ok h0
  decide

/-- C5: a `Put` on a present key overwrites the value in place and
moves the entry to the front; no eviction happens and the entry count
is unchanged.  Concretely `Put k v1; Put k v2; Get k` yields
`(v2, true)` with `Size` as after the first `Put`. -/
theorem C5_put_overwrites (c : LRUCache) (A B : List Entry) (i : Nat)
    (k v0 : String) (hR : Rel c (A ++ (i, k, v0) :: B)) (v : String) :
    Rel (c.Put k v) ((i, k, v) :: (A ++ B)) ∧
    (c.Put k v).Size = c.Size ∧
    (∀ s0, NewLRUCache 2 = .ok s0 →
      ((((s0.Put "k" "1").Put "k" "2").Get "k").1 = ("2", true) ∧
       ((s0.Put "k" "1").Put "k" "2").Size = (s0.Put "k" "1").Size)) := by
  have hrel := Put_existing_rel hR v
  refine ⟨hrel, ?_, ?_⟩
  · show (c.Put k v).cacheLen = c.cacheLen
    rw [hrel.len_eq, hR.len_eq]
    simp
    omega
  · intro s0 h0
    obtain ⟨-, rfl⟩ := NewLRUCache_ok h0
    decide

/-- C6: `Has` answers exactly "is the key present" and, being embedded
as a pure function `LRUCache → String → Bool` (the Go method takes
only a read lock and performs a single map lookup), it cannot change
any cache state.  In particular a `Has` on the least-recently-used key
does not save it from the next overflow: with capacity 2 and keys a, b
inserted, `Has a` answers true, and the next `Put c` still evicts a. -/
theorem C6_has_no_side_effect (c : LRUCache) (E : List Entry)
    (hR : Rel c E) (k : String) :
    (c.Has k = true ↔ k ∈ keysOf E) ∧
    (∀ s0, NewLRUCache 2 = .ok s0 →
      (((s0.Put "a" "1").Put "b" "2").Has "a" = true ∧
       (((s0.Put "a" "1").Put "b" "2").Put "c" "3").Has "a" = false ∧
       (((s0.Put "a" "1").Put "b" "2").Put "c" "3").Has "b" = true ∧
       (((s0.Put "a" "1").Put "b" "2").Put "c" "3").Has "c" = true)) := by
  refine ⟨Has_iff_rel hR k, ?_⟩
  intro s0 h0
  obtain ⟨-, rfl⟩ := NewLRUCache_ok h0
  decide

/-- C7: `NewLRUCache` fails with the invalid-capacity error exactly
when `capacity ≤ 0`; for `capacity ≥ 1` it returns an empty cache
(`Size = 0`, `IsEmpty`) whose `Capacity` equals the argument, and no
later operation ever changes the `Capacity` field. -/
theorem C7_construct (cap : Int) :
    (cap ≤ 0 →
      NewLRUCache cap = .error "invalid capacity: must be greater than 0") ∧
    (1 ≤ cap → ∃ s0, NewLRUCache cap = .ok s0 ∧ s0.Size = 0 ∧
      s0.IsEmpty = true ∧ s0.Capacity = cap) ∧
    (∀ (c : LRUCache) (k v : String), (c.Put k v).Capacity = c.Capacity ∧
      (c.Get k).2.Capacity = c.Capacity ∧ c.Clear.Capacity = c.Capacity) := by
  refine ⟨fun h => NewLRUCache_err h, fun h => ?_,
    fun c k v => ⟨by simp, by simp, rfl⟩⟩
  refine ⟨⟨cap, none, none, fun _ => none, fun _ => none, 0, 0⟩, ?_, rfl,
    rfl, rfl⟩
  unfold NewLRUCache
  rw [if_neg (by omega)]

/-- C8: every operation except construction is a total Lean function in
this embedding (none of `Get`, `Put`, `Has`, `Size`, `IsEmpty`, `Clear`
has an error channel in its type; only `NewLRUCache` returns
`Except`), and a missing key is signalled only through the found
boolean: `Get` of an absent key returns `("", false)` with the state
exactly unchanged, and the found flag / `Has` answer is precisely
presence in the map. -/
theorem C8_totality_found_flag (c : LRUCache) (k : String) :
    (c.Cache k = none → c.Get k = (("", false), c)) ∧
    ((c.Get k).1.2 = (c.Cache k).isSome) ∧
    (c.Has k = (c.Cache k).isSome) ∧
    (c.IsEmpty = (c.Size == 0)) := by
  refine ⟨fun h => Get_eq_miss h, ?_, rfl, rfl⟩
  cases h : c.Cache k with
  | some i => rw [Get_eq_hit h]; rfl
  | none => rw [Get_eq_miss h]; rfl

/-- C9 (modelled from the spec; `BatchGet` is not under `src/`):
`BatchGet` performs a `Get` for each key in sequence order — its final
state is the fold of `Get` over the keys — and returns a mapping with
an entry for every requested key, the missing keys mapped to the empty
string; `anyFound` is `false` exactly when the key sequence was
empty. -/
theorem C9_batchGet (c : LRUCache) (E : List Entry) (hR : Rel c E)
    (keys : List String) :
    ((c.BatchGet keys).1.2 = false ↔ keys = []) ∧
    (∀ k2 ∈ keys, ((c.BatchGet keys).1.1.lookup k2).isSome = true) ∧
    (∀ k2 ∈ keys, k2 ∉ keysOf E →
      (c.BatchGet keys).1.1.lookup k2 = some "") ∧
    ((c.BatchGet keys).2 = keys.foldl (fun s k2 => (s.Get k2).2) c) := by
  have h1 : (c.BatchGet keys).1.1 = (keys.foldl batchStep ([], c)).1 := rfl
  have h2 : (c.BatchGet keys).1.2
      = !(keys.foldl batchStep ([], c)).1.isEmpty := rfl
  have h3 : (c.BatchGet keys).2 = (keys.foldl batchStep ([], c)).2 := rfl
  refine ⟨?_, ?_, ?_, ?_⟩
  · rw [h2, Bool.not_eq_false', List.isEmpty_iff, batch_fold_nil_iff]
    simp
  · intro k2 hk
    rw [h1]
    exact batch_fold_isSome keys [] c k2 hk
  · intro k2 hk hmiss
    rw [h1]
    exact batch_fold_miss keys [] c E hR k2 hk hmiss
  · rw [h3]
    exact batch_fold_state keys [] c

/-- C10: the recency side effect of `Get` is idempotent — on any state
in which the key is present, a second immediate `Get` of the same key
returns the same `(value, true)` and the very same state, because
moving the entry already at the head changes nothing. -/
theorem C10_get_idempotent (c : LRUCache) (k : String)
    (h : (c.Cache k).isSome = true) :
    (c.Get k).1.2 = true ∧ (c.Get k).2.Get k = c.Get k := by
  obtain ⟨i, hi⟩ := Option.isSome_iff_exists.mp h
  constructor
  · rw [Get_eq_hit hi]
  · have hc1 : (c.moveToHead i).Cache k = some i := by
      rw [moveToHead_Cache]
      exact hi
    have hh1 : (c.moveToHead i).Head = some i := moveToHead_Head c i
    rw [Get_eq_hit hi]
    rw [Get_eq_hit hc1, moveToHead_of_head hh1]

/-! ### Concrete instantiations of the claims -/

theorem C1_capacity_invariant_witness :
    0 ≤ ((putFold (emptyCache 2) [("a", "1"), ("b", "2"), ("c", "3")]).Size : Int) ∧
    ((putFold (emptyCache 2) [("a", "1"), ("b", "2"), ("c", "3")]).Size : Int) ≤ 2 ∧
    (((putFold (emptyCache 2) [("a", "1"), ("b", "2"), ("c", "3")]).evictLRU.Size : Int) < 2) :=
  C1_capacity_invariant 2 (emptyCache 2) rfl [("a", "1"), ("b", "2"), ("c", "3")]

theorem C2_invariants_preserved_witness :
    Inv ((emptyCache 1).Get "x").2 ∧ Inv ((emptyCache 1).Put "x" "y") ∧
    Inv (emptyCache 1).Clear :=
  C2_invariants_preserved (emptyCache 1) ⟨[], Rel_init 1⟩ "x" "y"

theorem C3_eviction_order_witness :
    (putFold (emptyCache 1) [("a", "1"), ("b", "2")]).Has "a" = false ∧
    (∀ p ∈ [("b", "2")],
      (putFold (emptyCache 1) [("a", "1"), ("b", "2")]).Has p.1 = true) :=
  C3_eviction_order 1 (emptyCache 1) rfl ("a", "1") [("b", "2")]
    (by decide) (by decide)

theorem C4_get_refreshes_recency_witness :
    ((((emptyCache 3).Put "a" "x").Get "a").1 = ("x", true)) ∧
    Rel ((((emptyCache 3).Put "a" "x").Get "a").2) ((0, "a", "x") :: ([] ++ [])) ∧
    (∀ s0, NewLRUCache 3 = .ok s0 →
      ((((((s0.Put "A" "1").Put "B" "2").Put "C" "3").Get "A").2.Put
          "D" "4").Has "B" = false ∧
       (((((s0.Put "A" "1").Put "B" "2").Put "C" "3").Get "A").2.Put
          "D" "4").Has "A" = true ∧
       (((((s0.Put "A" "1").Put "B" "2").Put "C" "3").Get "A").2.Put
          "D" "4").Has "C" = true ∧
       (((((s0.Put "A" "1").Put "B" "2").Put "C" "3").Get "A").2.Put
          "D" "4").Has "D" = true)) :=
  C4_get_refreshes_recency ((emptyCache 3).Put "a" "x") [] [] 0 "a" "x"
    (Put_new_noevict_rel "x" (Rel_init 3) (by simp) (by decide))

theorem C5_put_overwrites_witness :
    Rel (((emptyCache 3).Put "a" "x").Put "a" "y") ((0, "a", "y") :: ([] ++ [])) ∧
    (((emptyCache 3).Put "a" "x").Put "a" "y").Size
      = ((emptyCache 3).Put "a" "x").Size ∧
    (∀ s0, NewLRUCache 2 = .ok s0 →
      ((((s0.Put "k" "1").Put "k" "2").Get "k").1 = ("2", true) ∧
       ((s0.Put "k" "1").Put "k" "2").Size = (s0.Put "k" "1").Size)) :=
  C5_put_overwrites ((emptyCache 3).Put "a" "x") [] [] 0 "a" "x"
    (Put_new_noevict_rel "x" (Rel_init 3) (by simp) (by decide)) "y"

theorem C6_has_no_side_effect_witness :
    ((emptyCache 2).Has "q" = true ↔ "q" ∈ keysOf []) ∧
    (∀ s0, NewLRUCache 2 = .ok s0 →
      (((s0.Put "a" "1").Put "b" "2").Has "a" = true ∧
       (((s0.Put "a" "1").Put "b" "2").Put "c" "3").Has "a" = false ∧
       (((s0.Put "a" "1").Put "b" "2").Put "c" "3").Has "b" = true ∧
       (((s0.Put "a" "1").Put "b" "2").Put "c" "3").Has "c" = true)) :=
  C6_has_no_side_effect (emptyCache 2) [] (Rel_init 2) "q"

theorem C7_construct_witness :
    NewLRUCache 0 = .error "invalid capacity: must be greater than 0" ∧
    (∃ s0, NewLRUCache 1 = .ok s0 ∧ s0.Size = 0 ∧ s0.IsEmpty = true ∧
      s0.Capacity = 1) :=
  ⟨(C7_construct 0).1 (by decide), (C7_construct 1).2.1 (by decide)⟩

theorem C8_totality_found_flag_witness :
    (emptyCache 1).Get "x" = (("", false), emptyCache 1) ∧
    ((emptyCache 1).Get "x").1.2 = ((emptyCache 1).Cache "x").isSome :=
  ⟨(C8_totality_found_flag (emptyCache 1) "x").1 rfl,
   (C8_totality_found_flag (emptyCache 1) "x").2.1⟩

theorem C9_batchGet_witness :
    (((emptyCache 2).BatchGet ["a"]).1.2 = false ↔ ["a"] = ([] : List String)) ∧
    (∀ k2 ∈ ["a"], (((emptyCache 2).BatchGet ["a"]).1.1.lookup k2).isSome = true) ∧
    (∀ k2 ∈ ["a"], k2 ∉ keysOf [] →
      ((emptyCache 2).BatchGet ["a"]).1.1.lookup k2 = some "") ∧
    (((emptyCache 2).BatchGet ["a"]).2
      = ["a"].foldl (fun s k2 => (s.Get k2).2) (emptyCache 2)) :=
  C9_batchGet (emptyCache 2) [] (Rel_init 2) ["a"]

theorem C10_get_idempotent_witness :
    ((((emptyCache 2).Put "a" "x").Get "a").1.2 = true) ∧
    ((((emptyCache 2).Put "a" "x").Get "a").2.Get "a"
      = ((emptyCache 2).Put "a" "x").Get "a") :=
  C10_get_idempotent ((emptyCache 2).Put "a" "x") "a" (by decide)

end LRU
